import Mathlib

/-!
Verification development for `refactors/direct_imports.py`, a tool that
rewrites indirect module references (re-exports reachable through a package's
`__init__.py`) into direct references.

The Python source is shallowly embedded:

* dotted names (`libcst` `Name`/`Attribute` chains and the string keys produced
  by `cst.helpers.get_full_name_for_node`) become `List String` of segments;
  a `cst.Name` whose value happens to contain dots (as produced by
  `importlib.util.resolve_name`) is one segment containing a dot, which is
  exactly how `deep_equals` distinguishes it from a parsed attribute chain;
* Python `dict`s become association lists with first-occurrence update
  (`dictInsert`) and first-occurrence lookup (`dictGet?`), matching CPython's
  insertion-ordered, unique-key dictionaries;
* raising code becomes `Except String`.
-/

/-- Update a Python dict: if the key is present its value is replaced in
place, otherwise the pair is appended at the end. -/

def dictInsert {κ ν : Type} [DecidableEq κ] : List (κ × ν) → κ → ν → List (κ × ν)
  | [], k, v => [(k, v)]
  | p :: rest, k, v => if p.1 = k then (k, v) :: rest else p :: dictInsert rest k v

/-- Python dict lookup: value of the first (unique) entry with the key. -/

def dictGet? {κ ν : Type} [DecidableEq κ] : List (κ × ν) → κ → Option ν
  | [], _ => none
  | p :: rest, k => if p.1 = k then some p.2 else dictGet? rest k

/-- Insert a sequence of key-value pairs into a dict, in order. -/

def foldInsert {κ ν : Type} [DecidableEq κ] (d : List (κ × ν)) (l : List (κ × ν)) :
    List (κ × ν) :=
  l.foldl (fun d p => dictInsert d p.1 p.2) d

/-- The value of the last pair with the given key in a plain pair list. -/

def lookupLast {κ ν : Type} [DecidableEq κ] : List (κ × ν) → κ → Option ν
  | [], _ => none
  | p :: rest, k =>
    match lookupLast rest k with
    | some v => some v
    | none => if p.1 = k then some p.2 else none

/-! ### Syntax model

A dotted name is its list of segments. `ImportAlias` models `libcst`'s
`ImportAlias`: `name` is the imported dotted name (`alias.name`), `asname`
the bound alias (`alias.asname.name`), a single identifier when present.
`Stmt` models the top-level statements of an entry-point module: `Import`
nodes, `ImportFrom` nodes (with the number of leading relative dots and the
optional module written after the dots), and all other statements, left
opaque. -/

abbrev Dotted := List String

structure ImportAlias where
  name : Dotted
  asname : Option String
  deriving DecidableEq, Repr

inductive Stmt where
  | imp (names : List ImportAlias)
  | impFrom (module : Option Dotted) (relative : Nat) (names : List ImportAlias)
  | other (text : String)
  deriving DecidableEq, Repr

/-- The rewrite table: a Python dict from indirect fully-qualified names to
the CST nodes of their direct references (both as segment lists). -/

abbrev Rewrites := List (Dotted × Dotted)

/-- Python's `enumerate`, starting at `k`. -/

def pyEnumerate {α : Type} (k : Nat) : List α → List (Nat × α)
  | [] => []
  | a :: rest => (k, a) :: pyEnumerate (k + 1) rest

/-- `importlib.util.resolve_name("." * dots, package)`: with a dots-only name
the result is the package name with `dots - 1` trailing segments removed;
if the package has fewer segments than dots, `ImportError` is raised. -/

def resolveNameDots (dots : Nat) (package : Dotted) : Except String Dotted :=
  if package.length < dots then
    Except.error "ImportError: attempted relative import beyond top-level package"
  else
    Except.ok (package.take (package.length - (dots - 1)))

/-! ### `IndirectImportTransformer`

`leave_Import` / `leave_ImportFrom` of `IndirectImportTransformer`, run on a
package's `__init__.py` with `self.pkg_fullname = pkgFull`.  The shared
mutable `self.rewrites` dict is threaded explicitly; raised exceptions become
`Except.error`. -/

structure ModuleInfo where
  name : Dotted
  ispkg : Bool
  deriving DecidableEq, Repr

structure PythonPackageInfo where
  filenames_to_modules : List (List String × ModuleInfo)
  fullnames_to_modules : List (Dotted × ModuleInfo)
  fullnames_to_packages : List (Dotted × Dotted)
  packages_to_modules : List (Dotted × List ModuleInfo)
  paths_to_packages : List (List String × Dotted)
  packages_to_paths : List (Dotted × List String)
  deriving DecidableEq, Repr

/-- The body of `leave_Import`'s `for n, alias in enumerate(original_node.names)`
loop.  An aliased name records the rule
`(pkg_fullname + "." + alias.asname.name -> alias.name)` and marks its index
for removal.  A plain name looks its full name up in
`pkg_info.fullnames_to_packages` (a `KeyError` if absent); the three
comparison branches on the owning package are all `pass`. -/

def importLoop (info : PythonPackageInfo) (pkgFull : Dotted) :
    List (Nat × ImportAlias) → Rewrites → List Nat →
    Except String (Rewrites × List Nat)
  | [], rw, idxs => Except.ok (rw, idxs)
  | (n, al) :: rest, rw, idxs =>
    match al.asname with
    | some a =>
        importLoop info pkgFull rest (dictInsert rw (pkgFull ++ [a]) al.name) (idxs ++ [n])
    | none =>
        match dictGet? info.fullnames_to_packages al.name with
        | none => Except.error ("KeyError: " ++ String.intercalate "." al.name)
        | some _modulePackage => importLoop info pkgFull rest rw idxs

/-- `IndirectImportTransformer.leave_Import`.  After the loop, marked names
are dropped by index; an import statement left with no names is removed
(`cst.RemoveFromParent()`, modelled by `none`). -/

def leave_Import (info : PythonPackageInfo) (pkgFull : Dotted)
    (names : List ImportAlias) (rw : Rewrites) :
    Except String (Rewrites × Option (List ImportAlias)) :=
  match importLoop info pkgFull (pyEnumerate 0 names) rw [] with
  | Except.error e => Except.error e
  | Except.ok (rw', idxs) =>
      if idxs = [] then Except.ok (rw', some names)
      else
        let new_names :=
          ((pyEnumerate 0 names).filter (fun p => !(decide (p.1 ∈ idxs)))).map Prod.snd
        if new_names = [] then Except.ok (rw', none)
        else Except.ok (rw', some new_names)

/-- The module part of `leave_ImportFrom`: `original_node.module` when present
(relative dots, if any, are ignored in that case), otherwise the dots are
resolved against the package's full name and wrapped in a single `cst.Name` —
one segment that may itself contain dots.  With neither module nor dots the
later use of `mod_name` would raise; that combination is unsyntactic. -/

def fromModName (module : Option Dotted) (relative : Nat) (pkgFull : Dotted) :
    Except String Dotted :=
  match module with
  | some m => Except.ok m
  | none =>
      if relative > 0 then
        (resolveNameDots relative pkgFull).map (fun r => [String.intercalate "." r])
      else Except.error "UnboundLocalError: mod_name"

/-- The body of `leave_ImportFrom`'s `for alias in original_node.names` loop:
record `(pkg_fullname + "." + exposed -> mod_name + "." + alias.name)` unless
the two nodes are `deep_equals`-identical (segment lists equal). -/

def fromLoop (pkgFull mod_name : Dotted) : List ImportAlias → Rewrites → Rewrites
  | [], rw => rw
  | al :: rest, rw =>
      let indirect_name : Dotted :=
        match al.asname with
        | some a => [a]
        | none => al.name
      let indirect_ref := pkgFull ++ indirect_name
      let direct_ref := mod_name ++ al.name
      if direct_ref = indirect_ref then fromLoop pkgFull mod_name rest rw
      else fromLoop pkgFull mod_name rest (dictInsert rw indirect_ref direct_ref)

/-- `IndirectImportTransformer.leave_ImportFrom`: record a rule per imported
name and always return `cst.RemoveFromParent()` (`none`). -/

def leave_ImportFrom (pkgFull : Dotted) (module : Option Dotted) (relative : Nat)
    (names : List ImportAlias) (rw : Rewrites) :
    Except String (Rewrites × Option Stmt) :=
  match fromModName module relative pkgFull with
  | Except.error e => Except.error e
  | Except.ok mod_name => Except.ok (fromLoop pkgFull mod_name names rw, none)

/-- Dispatch of the CST transformer over one top-level statement of the
entry point; non-import statements are returned unchanged. -/

def visitStmt (info : PythonPackageInfo) (pkgFull : Dotted) (s : Stmt)
    (rw : Rewrites) : Except String (Rewrites × Option Stmt) :=
  match s with
  | Stmt.imp names =>
      match leave_Import info pkgFull names rw with
      | Except.error e => Except.error e
      | Except.ok (rw', out) => Except.ok (rw', out.map Stmt.imp)
  | Stmt.impFrom m r names => leave_ImportFrom pkgFull m r names rw
  | Stmt.other t => Except.ok (rw, some (Stmt.other t))

/-- `pkg_init_cst.visit(import_visitor)`: transform the entry point's
statements in order, threading the shared rewrites dict, and collect the
statements that were not removed. -/

def visitEntry (info : PythonPackageInfo) (pkgFull : Dotted) :
    List Stmt → Rewrites → Except String (List Stmt × Rewrites)
  | [], rw => Except.ok ([], rw)
  | s :: rest, rw =>
      match visitStmt info pkgFull s rw with
      | Except.error e => Except.error e
      | Except.ok (rw', out) =>
          match visitEntry info pkgFull rest rw' with
          | Except.error e => Except.error e
          | Except.ok (outRest, rwFin) =>
              match out with
              | some s' => Except.ok (s' :: outRest, rwFin)
              | none => Except.ok (outRest, rwFin)

/-! ### Filesystem and `PythonPackageInfo`

The project root handed to `collect_indirect_references` is a package
directory; `PythonPackageInfo.__init__` runs `find_packages` on its *parent*
directory.  `FileSystem` is the `os.walk` listing (depth-first order) of that
parent: one `DirEntry` per directory, with its path segments relative to the
parent, whether it holds an `__init__.py`, that file's statements, and the
names (sans `.py`) of its other module files.  A directory that does not
exist walks to the empty listing. -/

structure DirEntry where
  path : List String
  hasInit : Bool
  initStmts : List Stmt
  pyModules : List String
  deriving DecidableEq, Repr

abbrev FileSystem := List DirEntry

/-- One step of `setuptools.find_packages`' test: the directory at `p` exists,
carries an `__init__.py`, and its own name contains no dot.  (Classic
`find_packages` never descends into a directory failing this test, so a
package requires every ancestor directory to pass it too.) -/

def pkgDirOk (fs : FileSystem) (p : List String) : Bool :=
  match fs.find? (fun e => e.path = p) with
  | some e => e.hasInit && !((p.getLastD "").data.contains '.')
  | none => false

/-- `find_packages(where=parent)`: every directory all of whose nonempty
path prefixes pass `pkgDirOk`, as a dotted name (its path segments), in walk
order.  On a missing or empty root this is simply `[]`; no error is raised,
and no identifier validation beyond the no-dot test is performed. -/

def findPackages (fs : FileSystem) : List Dotted :=
  (fs.filter (fun e =>
      !(e.path.isEmpty) &&
      (List.range e.path.length).all (fun i => pkgDirOk fs (e.path.take (i + 1))))).map
    (fun e => e.path)

/-- `pkgutil.iter_modules([package_path])`: the directory's `.py` files
(minus `__init__`) and its dot-free subdirectories that contain an
`__init__.py`.  (`sorted(os.listdir(...))` interleaves the two kinds
alphabetically; the relative order only shapes dict insertion order, which
none of the verified claims depend on.) -/

def iterModules (fs : FileSystem) (package_path : List String) : List (String × Bool) :=
  match fs.find? (fun e => e.path = package_path) with
  | none => []
  | some e =>
      e.pyModules.map (fun m => (m, false)) ++
      fs.filterMap (fun e' =>
        if e'.path.dropLast = package_path && !(e'.path.isEmpty) && e'.hasInit &&
            !((e'.path.getLastD "").data.contains '.') && e'.path ≠ package_path then
          some (e'.path.getLastD "", true)
        else none)

/-- The per-module file path: `package_path/name.py`, or
`package_path/name/__init__.py` for a subpackage. -/

def modFilename (package_path : List String) (m : String × Bool) : List String :=
  if m.2 then package_path ++ [m.1, "__init__.py"] else package_path ++ [m.1 ++ ".py"]

/-- `PythonPackageInfo.__init__`: run `find_packages` on the parent directory
and fill the six lookup dicts.  Note that nothing here raises: a missing or
package-free root just yields empty dicts. -/

def PythonPackageInfo.init (fs : FileSystem) : PythonPackageInfo :=
  let packages := findPackages fs
  packages.foldl
    (fun info package_name =>
      let package_path := package_name
      let info :=
        { info with
            packages_to_paths := dictInsert info.packages_to_paths package_name package_path
            paths_to_packages := dictInsert info.paths_to_packages package_path package_name }
      let mods := iterModules fs package_path
      let pkg_modinfos := mods.map (fun m => ModuleInfo.mk (package_name ++ [m.1]) m.2)
      let info := mods.foldl
        (fun info m =>
          let mod_fullname := package_name ++ [m.1]
          let new_modinfo := ModuleInfo.mk mod_fullname m.2
          { info with
              filenames_to_modules :=
                dictInsert info.filenames_to_modules (modFilename package_path m) new_modinfo
              fullnames_to_modules :=
                dictInsert info.fullnames_to_modules mod_fullname new_modinfo
              fullnames_to_packages :=
                dictInsert info.fullnames_to_packages mod_fullname package_name })
        info
      { info with
          packages_to_modules :=
            dictInsert info.packages_to_modules package_name pkg_modinfos })
    (PythonPackageInfo.mk [] [] [] [] [] [])

/-- `(pkg_path / "__init__.py").read_text()` followed by `cst.parse_module`:
the entry point's statements, or `FileNotFoundError`. -/

def readInit (fs : FileSystem) (pkg_path : List String) : Except String (List Stmt) :=
  match fs.find? (fun e => e.path = pkg_path) with
  | some e => if e.hasInit then Except.ok e.initStmts else Except.error "FileNotFoundError"
  | none => Except.error "FileNotFoundError"

/-- Phase 1 of `collect_indirect_references`, over an explicit package
traversal order: for each `(pkg_name, pkg_path)` read the entry point, build
an `IndirectImportTransformer` (whose `pkg_fullname` is
`paths_to_packages[pkg_dir]`, a `KeyError` if absent) and visit the tree,
threading the shared rewrites dict. -/

def classifyPackages (info : PythonPackageInfo) (fs : FileSystem) :
    List (Dotted × List String) → Rewrites → Except String Rewrites
  | [], rw => Except.ok rw
  | (_pkg_name, pkg_path) :: rest, rw =>
      match readInit fs pkg_path with
      | Except.error e => Except.error e
      | Except.ok stmts =>
          match dictGet? info.paths_to_packages pkg_path with
          | none => Except.error "KeyError: paths_to_packages"
          | some pkgFull =>
              match visitEntry info pkgFull stmts rw with
              | Except.error e => Except.error e
              | Except.ok (_tree, rw') => classifyPackages info fs rest rw'

/-- `for mod_path, mod_info in self.filenames_to_modules:` iterates the
*dict itself*, i.e. its keys, and unpacks each key — a `PosixPath` — into two
variables.  A `PosixPath` is not iterable, so the first iteration raises
`TypeError`. -/

def unpackPathPair (_p : List String) :
    Except String (List String × ModuleInfo) :=
  Except.error "TypeError: cannot unpack non-iterable PosixPath"

/-- Phase 2 of `collect_indirect_references`.  The loop body (skip packages,
read the module, `refine_indirect_references`, visit with
`RewriteIndirectImportsTransformer`, print a diff) sits after the unpacking
of the loop variable and is therefore never entered; those two functions are
modelled separately below. -/

def phaseTwoModules : List (List String × ModuleInfo) → Except String Unit
  | [] => Except.ok ()
  | (key, _) :: rest =>
      match unpackPathPair key with
      | Except.error e => Except.error e
      | Except.ok _ => phaseTwoModules rest

/-- `collect_indirect_references(project_path)`: build the package index,
run the classifier over every package (phase 1), then iterate the modules
(phase 2).  The function returns `None` in Python; the accumulated rewrites
dict is surfaced here as the result so that the table is observable. -/

def collect_indirect_references (fs : FileSystem) : Except String Rewrites :=
  let pkg_info := PythonPackageInfo.init fs
  match classifyPackages pkg_info fs pkg_info.packages_to_paths [] with
  | Except.error e => Except.error e
  | Except.ok rewrites =>
      match phaseTwoModules pkg_info.filenames_to_modules with
      | Except.error e => Except.error e
      | Except.ok _ => Except.ok rewrites

/-! ### `refine_indirect_references`

The function consumes `libcst`'s metadata: the scopes' assignments with their
references, the parent-node map, and `get_full_name_for_node` on attribute
nodes.  That metadata is the input here: `ScopeAssignment` is one entry of a
`scope.assignments` collection (`isAssignment` models
`isinstance(assignment, cst.metadata.Assignment)`, `node` is
`getattr(assignment, "node", None)`, `references` the ids of the use-site
`Name` nodes).  `parentAttr rid` is the id of `parent_nodes[ref.node]` when
that parent is a `cst.Attribute`; `attrFullName aid` is
`get_full_name_for_node` of that attribute node (`none` when the helper
returns `None`). -/

structure ScopeAssignment where
  isAssignment : Bool
  node : Option Stmt
  references : List Nat

structure ModuleGraph where
  assignments : List ScopeAssignment
  parentAttr : Nat → Option Nat
  attrFullName : Nat → Option Dotted

/-- `isinstance(node, (cst.Import, cst.ImportFrom))`. -/

def isImportNode : Option Stmt → Bool
  | some (Stmt.imp _) => true
  | some (Stmt.impFrom _ _ _) => true
  | _ => false

/-- The imported-module full names of an import node:
`get_full_name_for_node(m.name)` for each name of an `Import`, or the single
`get_full_name_for_node(node.module)` of an `ImportFrom` (`None` for a
dots-only relative import, on which `dict.get` then simply misses). -/

def moduleFullnames : Stmt → List (Option Dotted)
  | Stmt.imp names => names.map (fun al => some al.name)
  | Stmt.impFrom m _ _ => [m]
  | Stmt.other _ => []

/-- The `for mod_name in module_fullnames` loop: a rewrite-table hit maps the
whole import node to the replacement. -/

def modsLoop (rw : Rewrites) (node : Stmt) :
    List (Option Dotted) → List (Stmt × Dotted) → List (Stmt × Dotted)
  | [], imps => imps
  | mo :: rest, imps =>
      match mo with
      | some mod_name =>
          match dictGet? rw mod_name with
          | some replacement_module =>
              modsLoop rw node rest (dictInsert imps node replacement_module)
          | none => modsLoop rw node rest imps
      | none => modsLoop rw node rest imps

/-- The `for ref in assignment.references` loop: when the reference's parent
is an attribute node whose full dotted name is a rewrite-table key, map that
attribute node to the replacement. -/

def refsLoop (g : ModuleGraph) (rw : Rewrites) :
    List Nat → List (Nat × Dotted) → List (Nat × Dotted)
  | [], attrs => attrs
  | rid :: rest, attrs =>
      match g.parentAttr rid with
      | some aid =>
          match g.attrFullName aid with
          | some ref_fullname =>
              match dictGet? rw ref_fullname with
              | some replacement_module =>
                  refsLoop g rw rest (dictInsert attrs aid replacement_module)
              | none => refsLoop g rw rest attrs
          | none => refsLoop g rw rest attrs
      | none => refsLoop g rw rest attrs

/-- The body of the `for assignment in scope.assignments` loop: both inner
loops run only for assignments that are `cst.metadata.Assignment`s whose node
is an import statement. -/

def processAssignment (g : ModuleGraph) (rw : Rewrites) (asg : ScopeAssignment)
    (acc : List (Stmt × Dotted) × List (Nat × Dotted)) :
    List (Stmt × Dotted) × List (Nat × Dotted) :=
  match asg.node with
  | some node =>
      if asg.isAssignment && isImportNode (some node) then
        (modsLoop rw node (moduleFullnames node) acc.1,
         refsLoop g rw asg.references acc.2)
      else acc
  | none => acc

/-- `refine_indirect_references(wrapper, rewrites)`: fold the assignment loop
over the module's scope graph, returning
`(imports_with_indirects, indirect_references)`. -/

def refine_indirect_references (g : ModuleGraph) (rw : Rewrites) :
    List (Stmt × Dotted) × List (Nat × Dotted) :=
  g.assignments.foldl (fun acc asg => processAssignment g rw asg acc) ([], [])

/-! ### `RewriteIndirectImportsTransformer`

The module tree being rewritten is modelled at the granularity the
transformer acts on: import-statement nodes, attribute-access nodes (with
their id, matching the keys of `indirect_references`), replacement dotted
expressions, and everything else opaque. -/

inductive MNode where
  | importStmt (s : Stmt)
  | attrExpr (aid : Nat) (fullName : Option Dotted)
  | dottedExpr (d : Dotted)
  | otherNode (text : String)
  deriving DecidableEq, Repr

/-- One visit of `RewriteIndirectImportsTransformer`: `leave_Import` and
`leave_ImportFrom` are TODO stubs (a `breakpoint()` call followed by
`return updated_node`), so import statements come back unchanged;
`leave_Attribute` returns `self.indirect_references.get(original_node,
updated_node)`, replacing a recorded attribute node by its direct
reference. -/

def rewriteVisit (_imports_with_indirects : List (Stmt × Dotted))
    (indirect_references : List (Nat × Dotted)) : MNode → MNode
  | MNode.importStmt s => MNode.importStmt s
  | MNode.attrExpr aid fullName =>
      match dictGet? indirect_references aid with
      | some replacement => MNode.dottedExpr replacement
      | none => MNode.attrExpr aid fullName
  | MNode.dottedExpr d => MNode.dottedExpr d
  | MNode.otherNode t => MNode.otherNode t

/-- `wrapper.module.visit(RewriteIndirectImportsTransformer(...))` over a
module's matched nodes. -/

def rewriteModule (imports_with_indirects : List (Stmt × Dotted))
    (indirect_references : List (Nat × Dotted)) (m : List MNode) : List MNode :=
  m.map (rewriteVisit imports_with_indirects indirect_references)

/-! ### Functional characterizations of the classifier

Each visitor call appends a batch of rules to the shared dict; the batch
depends only on the statement and the package, not on the dict's prior
contents.  The `...Delta` functions compute those batches, and the `..._eq`
lemmas identify the visitors with `foldInsert` of the batches. -/

/-- The rules recorded by `leave_Import` for one statement's names. -/

def impDelta (pkgFull : Dotted) (names : List ImportAlias) : List (Dotted × Dotted) :=
  names.filterMap (fun al => al.asname.map (fun a => (pkgFull ++ [a], al.name)))

/-- The indices `leave_Import` marks for removal, or its `KeyError`. -/

def impRes (info : PythonPackageInfo) : List (Nat × ImportAlias) → Except String (List Nat)
  | [] => Except.ok []
  | (n, al) :: rest =>
    match al.asname with
    | some _ => (impRes info rest).map (fun ids => n :: ids)
    | none =>
        match dictGet? info.fullnames_to_packages al.name with
        | none => Except.error ("KeyError: " ++ String.intercalate "." al.name)
        | some _ => impRes info rest

/-- The indices of the aliased names, counting from `k`. -/

def aliasedIds : Nat → List ImportAlias → List Nat
  | _, [] => []
  | k, al :: rest =>
    match al.asname with
    | some _ => k :: aliasedIds (k + 1) rest
    | none => aliasedIds (k + 1) rest

/-- The rules recorded by `leave_ImportFrom` for one statement's names
(the `deep_equals` self-reference skips already applied). -/

def fromDelta (pkgFull mod_name : Dotted) (names : List ImportAlias) :
    List (Dotted × Dotted) :=
  names.filterMap (fun al =>
    let indirect_ref :=
      pkgFull ++ (match al.asname with
                  | some a => [a]
                  | none => al.name)
    let direct_ref := mod_name ++ al.name
    if direct_ref = indirect_ref then none else some (indirect_ref, direct_ref))

/-- `stmtWF`: from-import names without an alias are single identifiers,
as Python's grammar guarantees for real sources. -/

def stmtWF : Stmt → Bool
  | Stmt.impFrom _ _ names =>
      names.all (fun al => al.asname.isSome || al.name.length == 1)
  | _ => true

/-- The visitor's effect on one statement, separated from the shared dict:
the kept statement and the batch of recorded rules. -/

def stmtRun (info : PythonPackageInfo) (pkgFull : Dotted) (s : Stmt) :
    Except String (Option Stmt × List (Dotted × Dotted)) :=
  match s with
  | Stmt.imp names =>
      (impRes info (pyEnumerate 0 names)).map (fun ids =>
        (if ids = [] then some (Stmt.imp names)
         else
           let new_names :=
             ((pyEnumerate 0 names).filter (fun p => !(decide (p.1 ∈ ids)))).map Prod.snd
           if new_names = [] then none else some (Stmt.imp new_names),
         impDelta pkgFull names))
  | Stmt.impFrom m r names =>
      (fromModName m r pkgFull).map
        (fun mod_name => (none, fromDelta pkgFull mod_name names))
  | Stmt.other t => Except.ok (some (Stmt.other t), [])

/-- The whole entry point's effect: kept statements and concatenated rule
batches. -/

def entryRun (info : PythonPackageInfo) (pkgFull : Dotted) :
    List Stmt → Except String (List Stmt × List (Dotted × Dotted))
  | [] => Except.ok ([], [])
  | s :: rest =>
      match stmtRun info pkgFull s with
      | Except.error e => Except.error e
      | Except.ok (out, d) =>
          match entryRun info pkgFull rest with
          | Except.error e => Except.error e
          | Except.ok (outRest, dRest) =>
              Except.ok
                ((match out with
                  | some s' => s' :: outRest
                  | none => outRest), d ++ dRest)

/-! ### Per-package batches and traversal-order irrelevance -/

/-- Everything phase 1 does for one `(pkg_name, pkg_path)` entry, with the
recorded batch of rules as the result. -/

def pkgRun (info : PythonPackageInfo) (fs : FileSystem) (p : Dotted × List String) :
    Except String (List (Dotted × Dotted)) :=
  match readInit fs p.2 with
  | Except.error e => Except.error e
  | Except.ok stmts =>
      match dictGet? info.paths_to_packages p.2 with
      | none => Except.error "KeyError: paths_to_packages"
      | some pkgFull =>
          match entryRun info pkgFull stmts with
          | Except.error e => Except.error e
          | Except.ok od => Except.ok od.2

def pkgRuns (info : PythonPackageInfo) (fs : FileSystem) :
    List (Dotted × List String) → Except String (List (List (Dotted × Dotted)))
  | [] => Except.ok []
  | p :: rest =>
      match pkgRun info fs p with
      | Except.error e => Except.error e
      | Except.ok d =>
          match pkgRuns info fs rest with
          | Except.error e => Except.error e
          | Except.ok ds => Except.ok (d :: ds)

/-- The canonical rule batch of one `(pkg_name, pkg_path)` entry (`[]` when
classification of that package raises). -/

def pkgDelta (info : PythonPackageInfo) (fs : FileSystem) (p : Dotted × List String) :
    List (Dotted × Dotted) :=
  match pkgRun info fs p with
  | Except.ok d => d
  | Except.error _ => []

/-- `paths_to_packages` lookup of a traversal entry, the package's resolved
full name. -/

def resolvedPkg (info : PythonPackageInfo) (p : Dotted × List String) : Option Dotted :=
  dictGet? info.paths_to_packages p.2

/-! ### Characterizations of `refine_indirect_references` -/

/-- The rewrite-table hit for an attribute node: its full dotted name looked
up in the table. -/

def attrHit (g : ModuleGraph) (rw : Rewrites) (aid : Nat) : Option Dotted :=
  match g.attrFullName aid with
  | some fn => dictGet? rw fn
  | none => none

/-- The `(attribute node, replacement)` pairs one reference list produces. -/

def refPairs (g : ModuleGraph) (rw : Rewrites) (rids : List Nat) : List (Nat × Dotted) :=
  rids.filterMap (fun rid =>
    match g.parentAttr rid with
    | some aid =>
        match attrHit g rw aid with
        | some repl => some (aid, repl)
        | none => none
    | none => none)

/-- The attribute pairs one scope assignment produces (empty unless it is an
`Assignment` whose node is an import). -/

def assignAttrPairs (g : ModuleGraph) (rw : Rewrites) (asg : ScopeAssignment) :
    List (Nat × Dotted) :=
  match asg.node with
  | some node =>
      if asg.isAssignment && isImportNode (some node) then refPairs g rw asg.references
      else []
  | none => []

/-! ### Remaining helper lemmas for the classifier claims -/

/-- The indirect key `leave_ImportFrom` builds for one alias. -/

def fromKey (pkgFull : Dotted) (al : ImportAlias) : Dotted :=
  pkgFull ++ (match al.asname with
              | some a => [a]
              | none => al.name)

/-! ### Concrete fixtures -/

/-- Witness project: package `pkg` (modules `mod1`, `mod2`) re-exporting
`var3` from `pkg.mod2`, and sub-package `pkg.sub_pkg` (module `mod3`)
re-exporting `var1` from `pkg`. -/

def fsW : FileSystem :=
  [ { path := ["pkg"], hasInit := true,
      initStmts := [Stmt.impFrom (some ["pkg", "mod2"]) 0
        [ImportAlias.mk ["var3"] (some "variable3")]],
      pyModules := ["mod1", "mod2"] },
    { path := ["pkg", "sub_pkg"], hasInit := true,
      initStmts := [Stmt.impFrom (some ["pkg"]) 0 [ImportAlias.mk ["var1"] none]],
      pyModules := ["mod3"] } ]

/-- Minimal project with one module file and an empty entry point. -/

def fsC8 : FileSystem :=
  [ { path := ["pkg"], hasInit := true, initStmts := [], pyModules := ["mod1"] } ]

def infoW : PythonPackageInfo := PythonPackageInfo.init fsW

def pkgOrderA : List (Dotted × List String) :=
  [(["pkg"], ["pkg"]), (["pkg", "sub_pkg"], ["pkg", "sub_pkg"])]

def pkgOrderB : List (Dotted × List String) :=
  [(["pkg", "sub_pkg"], ["pkg", "sub_pkg"]), (["pkg"], ["pkg"])]

/-- Scope graph of a module `pkg = 1` followed by a use `pkg.var3`: one
`Assignment` whose node is a plain assignment (not an import), whose
reference (node 0) has the attribute node 1, full name `pkg.var3`, as its
parent. -/

def graphCx : ModuleGraph :=
  { assignments := [⟨true, some (Stmt.other "pkg = 1"), [0]⟩],
    parentAttr := fun rid => if rid = 0 then some 1 else none,
    attrFullName := fun aid => if aid = 1 then some ["pkg", "var3"] else none }

/-- A from-import node matched by the rewrite table, for the C4 fixture. -/

def impStmtC4 : Stmt := Stmt.impFrom (some ["pkg"]) 0 [ImportAlias.mk ["variable2"] none]

/-! ### Claims -/

theorem dictGet?_insert_self {κ ν : Type} [DecidableEq κ] (d : List (κ × ν)) (k : κ) (v : ν) :
    dictGet? (dictInsert d k v) k = some v := by
  induction d with
  | nil => simp [dictInsert, dictGet?]
  | cons p rest ih =>
      by_cases h : p.1 = k
      · simp [dictInsert, dictGet?, h]
      · simp [dictInsert, dictGet?, h, ih]

theorem dictGet?_insert_ne {κ ν : Type} [DecidableEq κ] (d : List (κ × ν)) (k k' : κ) (v : ν)
    (hne : k' ≠ k) : dictGet? (dictInsert d k v) k' = dictGet? d k' := by
  have hkk : ¬ k = k' := fun hx => hne hx.symm
  induction d with
  | nil => simp [dictInsert, dictGet?, hkk]
  | cons p rest ih =>
      by_cases h : p.1 = k
      · subst h
        simp [dictInsert, dictGet?, hkk]
      · simp only [dictInsert, if_neg h]
        by_cases h' : p.1 = k'
        · simp [dictGet?, h']
        · simp [dictGet?, h', ih]

theorem foldInsert_nil {κ ν : Type} [DecidableEq κ] (d : List (κ × ν)) :
    foldInsert d [] = d := rfl

theorem foldInsert_cons {κ ν : Type} [DecidableEq κ] (d : List (κ × ν)) (p : κ × ν)
    (l : List (κ × ν)) : foldInsert d (p :: l) = foldInsert (dictInsert d p.1 p.2) l := rfl

theorem foldInsert_append {κ ν : Type} [DecidableEq κ] (d : List (κ × ν))
    (l₁ l₂ : List (κ × ν)) : foldInsert d (l₁ ++ l₂) = foldInsert (foldInsert d l₁) l₂ := by
  simp [foldInsert, List.foldl_append]

theorem dictGet?_foldInsert {κ ν : Type} [DecidableEq κ] (d : List (κ × ν))
    (l : List (κ × ν)) (k : κ) :
    dictGet? (foldInsert d l) k =
      match lookupLast l k with
      | some v => some v
      | none => dictGet? d k := by
  induction l generalizing d with
  | nil => simp [foldInsert, lookupLast]
  | cons p rest ih =>
      rw [foldInsert_cons, ih]
      cases hrest : lookupLast rest k with
      | some v => simp [lookupLast, hrest]
      | none =>
          by_cases h : p.1 = k
          · subst h
            simp [lookupLast, hrest, dictGet?_insert_self]
          · have hkp : k ≠ p.1 := fun hx => h hx.symm
            simp [lookupLast, hrest, dictGet?_insert_ne _ _ _ _ hkp, h]

theorem lookupLast_append {κ ν : Type} [DecidableEq κ] (l₁ l₂ : List (κ × ν)) (k : κ) :
    lookupLast (l₁ ++ l₂) k =
      match lookupLast l₂ k with
      | some v => some v
      | none => lookupLast l₁ k := by
  induction l₁ with
  | nil => cases hl : lookupLast l₂ k <;> simp [lookupLast, hl]
  | cons p rest ih =>
      simp only [List.cons_append, lookupLast]
      rw [List.append_eq, ih]
      cases hl : lookupLast l₂ k <;> cases hr : lookupLast rest k <;>
        simp [lookupLast, hl, hr]

theorem lookupLast_eq_none_of_not_mem {κ ν : Type} [DecidableEq κ] (l : List (κ × ν)) (k : κ)
    (h : k ∉ l.map Prod.fst) : lookupLast l k = none := by
  induction l with
  | nil => rfl
  | cons p rest ih =>
      simp only [List.map_cons, List.mem_cons] at h
      push_neg at h
      have hrest := ih h.2
      have hne : ¬ p.1 = k := fun hx => h.1 hx.symm
      simp [lookupLast, hrest, hne]

theorem lookupLast_nodup {κ ν : Type} [DecidableEq κ] (l : List (κ × ν)) (k : κ) (v : ν)
    (hnd : (l.map Prod.fst).Nodup) (hmem : (k, v) ∈ l) : lookupLast l k = some v := by
  induction l with
  | nil => cases hmem
  | cons p rest ih =>
      simp only [List.map_cons, List.nodup_cons] at hnd
      rcases List.mem_cons.mp hmem with hh | ht
      · subst hh
        have : k ∉ rest.map Prod.fst := by simpa using hnd.1
        simp [lookupLast, lookupLast_eq_none_of_not_mem rest k this]
      · simp [lookupLast, ih hnd.2 ht]

theorem lookupLast_fn_iff {κ ν : Type} [DecidableEq κ] (F : κ → Option ν) :
    ∀ (l : List (κ × ν)), (∀ p ∈ l, F p.1 = some p.2) → ∀ (k : κ) (v : ν),
      (lookupLast l k = some v ↔ (F k = some v ∧ k ∈ l.map Prod.fst))
  | [], _, k, v => by simp [lookupLast]
  | p :: rest, hF, k, v => by
      have hFp : F p.1 = some p.2 := hF p (List.mem_cons_self p rest)
      have ihr := lookupLast_fn_iff F rest (fun q hq => hF q (List.mem_cons_of_mem p hq)) k
      cases hrest : lookupLast rest k with
      | some w =>
          have hw := (ihr w).mp hrest
          simp only [lookupLast, hrest, List.map_cons, List.mem_cons]
          constructor
          · rintro h
            cases h
            exact ⟨hw.1, Or.inr hw.2⟩
          · rintro ⟨hFk, _⟩
            rw [hw.1] at hFk
            cases hFk
            rfl
      | none =>
          by_cases hpk : p.1 = k
          · subst hpk
            simp only [lookupLast, hrest, if_pos rfl, List.map_cons, List.mem_cons]
            constructor
            · rintro h
              cases h
              exact ⟨hFp, by simp⟩
            · rintro ⟨hFk, _⟩
              rw [hFp] at hFk
              cases hFk
              rfl
          · simp only [lookupLast, hrest, if_neg hpk, List.map_cons, List.mem_cons]
            constructor
            · rintro h
              cases h
            · rintro ⟨hFk, hmem⟩
              rcases hmem with hh | ht
              · exact absurd hh.symm hpk
              · have := (ihr v).mpr ⟨hFk, ht⟩
                rw [hrest] at this
                cases this

theorem pyEnumerate_map_snd {α : Type} : ∀ (k : Nat) (l : List α),
    (pyEnumerate k l).map Prod.snd = l
  | _, [] => rfl
  | k, _ :: rest => by simp [pyEnumerate, pyEnumerate_map_snd (k + 1) rest]

theorem pyEnumerate_fst_ge {α : Type} : ∀ (k : Nat) (l : List α) (p : Nat × α),
    p ∈ pyEnumerate k l → k ≤ p.1
  | k, [], p => by simp [pyEnumerate]
  | k, a :: rest, p => by
      intro hp
      rcases List.mem_cons.mp hp with hh | ht
      · subst hh; exact Nat.le_refl k
      · exact Nat.le_of_succ_le (pyEnumerate_fst_ge (k + 1) rest p ht)

theorem importLoop_eq (info : PythonPackageInfo) (pkgFull : Dotted) :
    ∀ (l : List (Nat × ImportAlias)) (rw : Rewrites) (idxs : List Nat),
      importLoop info pkgFull l rw idxs =
        (impRes info l).map
          (fun ids => (foldInsert rw (impDelta pkgFull (l.map Prod.snd)), idxs ++ ids))
  | [], rw, idxs => by simp [importLoop, impRes, impDelta, Except.map, foldInsert_nil]
  | (n, al) :: rest, rw, idxs => by
      cases hals : al.asname with
      | some a =>
          have ih := importLoop_eq info pkgFull rest
            (dictInsert rw (pkgFull ++ [a]) al.name) (idxs ++ [n])
          cases hres : impRes info rest with
          | error e =>
              simp [importLoop, hals, ih, impRes, hres, Except.map]
          | ok ids =>
              simp [importLoop, hals, ih, impRes, hres, Except.map, impDelta,
                List.filterMap_cons, foldInsert_cons, List.append_assoc]
      | none =>
          cases hget : dictGet? info.fullnames_to_packages al.name with
          | none =>
              simp [importLoop, hals, hget, impRes, Except.map]
          | some mp =>
              have ih := importLoop_eq info pkgFull rest rw idxs
              simp [importLoop, hals, hget, impRes, ih, impDelta, List.filterMap_cons]

theorem leave_Import_eq (info : PythonPackageInfo) (pkgFull : Dotted)
    (names : List ImportAlias) (rw : Rewrites) :
    leave_Import info pkgFull names rw =
      (impRes info (pyEnumerate 0 names)).map (fun ids =>
        (foldInsert rw (impDelta pkgFull names),
         if ids = [] then some names
         else
           let new_names :=
             ((pyEnumerate 0 names).filter (fun p => !(decide (p.1 ∈ ids)))).map Prod.snd
           if new_names = [] then none else some new_names)) := by
  unfold leave_Import
  rw [importLoop_eq]
  cases hres : impRes info (pyEnumerate 0 names) with
  | error e => simp [Except.map]
  | ok ids =>
      simp only [Except.map, pyEnumerate_map_snd, List.nil_append]
      split_ifs <;> rfl

theorem aliasedIds_ge : ∀ (names : List ImportAlias) (k m : Nat),
    m ∈ aliasedIds k names → k ≤ m
  | [], k, m => by simp [aliasedIds]
  | al :: rest, k, m => by
      intro hm
      cases hals : al.asname with
      | some a =>
          rw [aliasedIds, hals] at hm
          rcases List.mem_cons.mp hm with hh | ht
          · exact hh ▸ Nat.le_refl k
          · exact Nat.le_of_succ_le (aliasedIds_ge rest (k + 1) m ht)
      | none =>
          rw [aliasedIds, hals] at hm
          exact Nat.le_of_succ_le (aliasedIds_ge rest (k + 1) m hm)

theorem impRes_ok_ids (info : PythonPackageInfo) :
    ∀ (names : List ImportAlias) (k : Nat) (ids : List Nat),
      impRes info (pyEnumerate k names) = Except.ok ids → ids = aliasedIds k names
  | [], k, ids => by
      intro h
      simp only [pyEnumerate, impRes] at h
      cases h
      rfl
  | al :: rest, k, ids => by
      intro h
      cases hals : al.asname with
      | some a =>
          rw [pyEnumerate, impRes, hals] at h
          cases hres : impRes info (pyEnumerate (k + 1) rest) with
          | error e => rw [hres] at h; simp [Except.map] at h
          | ok ids' =>
              rw [hres] at h
              simp only [Except.map] at h
              cases h
              rw [aliasedIds, hals, impRes_ok_ids info rest (k + 1) ids' hres]
      | none =>
          rw [pyEnumerate, impRes, hals] at h
          cases hget : dictGet? info.fullnames_to_packages al.name with
          | none => rw [hget] at h; cases h
          | some mp =>
              rw [hget] at h
              rw [aliasedIds, hals, impRes_ok_ids info rest (k + 1) ids h]

theorem remove_aliased_eq_filter :
    ∀ (names : List ImportAlias) (k : Nat),
      ((pyEnumerate k names).filter
          (fun p => !(decide (p.1 ∈ aliasedIds k names)))).map Prod.snd
        = names.filter (fun al => al.asname.isNone)
  | [], k => rfl
  | al :: rest, k => by
      have hcongr :
          (pyEnumerate (k + 1) rest).filter
              (fun p => !(decide (p.1 ∈ aliasedIds k (al :: rest))))
            = (pyEnumerate (k + 1) rest).filter
              (fun p => !(decide (p.1 ∈ aliasedIds (k + 1) rest))) := by
        apply List.filter_congr
        intro p hp
        have hge : k + 1 ≤ p.1 := pyEnumerate_fst_ge (k + 1) rest p hp
        cases hals : al.asname with
        | some a =>
            have hne : ¬ p.1 = k := fun hx => by omega
            simp [aliasedIds, hals, hne]
        | none => simp [aliasedIds, hals]
      cases hals : al.asname with
      | some a =>
          have hk : k ∈ aliasedIds k (al :: rest) := by
            rw [aliasedIds, hals]; exact List.mem_cons_self _ _
          rw [pyEnumerate, List.filter_cons, if_neg (by simp [hk]), hcongr,
            remove_aliased_eq_filter rest (k + 1), List.filter_cons]
          simp [hals]
      | none =>
          have hk : k ∉ aliasedIds k (al :: rest) := by
            rw [aliasedIds, hals]
            intro hmem
            have := aliasedIds_ge rest (k + 1) k hmem
            omega
          rw [pyEnumerate, List.filter_cons, if_pos (by simp [hk]), List.map_cons, hcongr,
            remove_aliased_eq_filter rest (k + 1), List.filter_cons]
          simp [hals]

theorem fromLoop_eq (pkgFull mod_name : Dotted) :
    ∀ (names : List ImportAlias) (rw : Rewrites),
      fromLoop pkgFull mod_name names rw =
        foldInsert rw (fromDelta pkgFull mod_name names)
  | [], rw => rfl
  | al :: rest, rw => by
      rw [fromLoop, fromDelta, List.filterMap_cons]
      cases hals : al.asname with
      | some a =>
          by_cases heq :
              mod_name ++ al.name = pkgFull ++ [a]
          · simp only [hals, heq, if_pos]
            rw [fromLoop_eq pkgFull mod_name rest rw, fromDelta]
          · simp only [hals, if_neg heq]
            rw [fromLoop_eq pkgFull mod_name rest _, fromDelta, foldInsert_cons]
      | none =>
          by_cases heq : mod_name ++ al.name = pkgFull ++ al.name
          · simp only [hals, heq, if_pos]
            rw [fromLoop_eq pkgFull mod_name rest rw, fromDelta]
          · simp only [hals, if_neg heq]
            rw [fromLoop_eq pkgFull mod_name rest _, fromDelta, foldInsert_cons]

theorem visitStmt_eq (info : PythonPackageInfo) (pkgFull : Dotted) (s : Stmt)
    (rw : Rewrites) :
    visitStmt info pkgFull s rw =
      (stmtRun info pkgFull s).map (fun od => (foldInsert rw od.2, od.1)) := by
  cases s with
  | imp names =>
      rw [visitStmt, leave_Import_eq, stmtRun]
      cases hres : impRes info (pyEnumerate 0 names) with
      | error e => simp [Except.map]
      | ok ids =>
          simp only [Except.map]
          split_ifs <;> simp [Option.map]
  | impFrom m r names =>
      rw [visitStmt, leave_ImportFrom, stmtRun]
      cases hmod : fromModName m r pkgFull with
      | error e => simp [Except.map]
      | ok mod_name => simp [Except.map, fromLoop_eq]
  | other t => simp [visitStmt, stmtRun, Except.map, foldInsert_nil]

theorem visitEntry_eq (info : PythonPackageInfo) (pkgFull : Dotted) :
    ∀ (stmts : List Stmt) (rw : Rewrites),
      visitEntry info pkgFull stmts rw =
        (entryRun info pkgFull stmts).map (fun od => (od.1, foldInsert rw od.2))
  | [], rw => by simp [visitEntry, entryRun, Except.map, foldInsert_nil]
  | s :: rest, rw => by
      rw [visitEntry, visitStmt_eq, entryRun]
      cases hs : stmtRun info pkgFull s with
      | error e => simp [Except.map]
      | ok od =>
          obtain ⟨out, d⟩ := od
          simp only [Except.map]
          rw [visitEntry_eq info pkgFull rest (foldInsert rw d)]
          cases hrest : entryRun info pkgFull rest with
          | error e => simp [Except.map]
          | ok odr =>
              obtain ⟨outRest, dRest⟩ := odr
              cases out <;> simp [Except.map, foldInsert_append]

theorem impDelta_shape (pkgFull : Dotted) (names : List ImportAlias) :
    ∀ p ∈ impDelta pkgFull names, ∃ x, p.1 = pkgFull ++ [x] := by
  intro p hp
  rcases List.mem_filterMap.mp hp with ⟨al, _, hmap⟩
  rcases Option.map_eq_some'.mp hmap with ⟨a, _, hfa⟩
  exact ⟨a, by rw [← hfa]⟩

theorem fromDelta_shape (pkgFull mod_name : Dotted) (names : List ImportAlias)
    (hwf : names.all (fun al => al.asname.isSome || al.name.length == 1) = true) :
    ∀ p ∈ fromDelta pkgFull mod_name names, ∃ x, p.1 = pkgFull ++ [x] := by
  intro p hp
  rcases List.mem_filterMap.mp hp with ⟨al, hal, hmap⟩
  have hwal := List.all_eq_true.mp hwf al hal
  cases hals : al.asname with
  | some a =>
      rw [hals] at hmap
      by_cases heq : mod_name ++ al.name = pkgFull ++ [a]
      · simp [heq] at hmap
      · simp only [if_neg heq, Option.some_inj] at hmap
        exact ⟨a, by rw [← hmap]⟩
  | none =>
      rw [hals] at hmap
      rw [hals] at hwal
      simp only [Option.isSome_none, Bool.false_or, beq_iff_eq] at hwal
      rcases List.length_eq_one.mp hwal with ⟨x, hx⟩
      by_cases heq : mod_name ++ al.name = pkgFull ++ al.name
      · simp [heq] at hmap
      · simp only [if_neg heq, Option.some_inj] at hmap
        exact ⟨x, by rw [← hmap, hx]⟩

theorem stmtRun_shape (info : PythonPackageInfo) (pkgFull : Dotted) (s : Stmt)
    (od : Option Stmt × List (Dotted × Dotted)) (hwf : stmtWF s = true)
    (hok : stmtRun info pkgFull s = Except.ok od) :
    ∀ p ∈ od.2, ∃ x, p.1 = pkgFull ++ [x] := by
  cases s with
  | imp names =>
      rw [stmtRun] at hok
      cases hres : impRes info (pyEnumerate 0 names) with
      | error e => rw [hres] at hok; cases hok
      | ok ids =>
          rw [hres] at hok
          simp only [Except.map] at hok
          cases hok
          exact impDelta_shape pkgFull names
  | impFrom m r names =>
      rw [stmtRun] at hok
      cases hmod : fromModName m r pkgFull with
      | error e => rw [hmod] at hok; cases hok
      | ok mod_name =>
          rw [hmod] at hok
          simp only [Except.map] at hok
          cases hok
          exact fromDelta_shape pkgFull mod_name names (by simpa [stmtWF] using hwf)
  | other t =>
      rw [stmtRun] at hok
      cases hok
      simp

theorem entryRun_shape (info : PythonPackageInfo) (pkgFull : Dotted) :
    ∀ (stmts : List Stmt) (od : List Stmt × List (Dotted × Dotted)),
      (∀ s ∈ stmts, stmtWF s = true) →
      entryRun info pkgFull stmts = Except.ok od →
      ∀ p ∈ od.2, ∃ x, p.1 = pkgFull ++ [x]
  | [], od, _, hok => by
      rw [entryRun] at hok
      cases hok
      simp
  | s :: rest, od, hwf, hok => by
      rw [entryRun] at hok
      cases hs : stmtRun info pkgFull s with
      | error e => rw [hs] at hok; cases hok
      | ok od₁ =>
          rw [hs] at hok
          cases hrest : entryRun info pkgFull rest with
          | error e => rw [hrest] at hok; cases hok
          | ok od₂ =>
              rw [hrest] at hok
              cases hok
              intro p hp
              rcases List.mem_append.mp hp with h₁ | h₂
              · exact stmtRun_shape info pkgFull s od₁
                  (hwf s (List.mem_cons_self s rest)) hs p h₁
              · exact entryRun_shape info pkgFull rest od₂
                  (fun q hq => hwf q (List.mem_cons_of_mem s hq)) hrest p h₂

theorem classifyPackages_eq (info : PythonPackageInfo) (fs : FileSystem) :
    ∀ (l : List (Dotted × List String)) (rw : Rewrites),
      classifyPackages info fs l rw =
        (pkgRuns info fs l).map (fun ds => foldInsert rw ds.flatten)
  | [], rw => by
      simp [classifyPackages, pkgRuns, Except.map, foldInsert_nil]
  | (pn, pp) :: rest, rw => by
      rw [classifyPackages, pkgRuns, pkgRun]
      cases hri : readInit fs pp with
      | error e => simp [Except.map]
      | ok stmts =>
          cases hlk : dictGet? info.paths_to_packages pp with
          | none => simp [Except.map]
          | some pkgFull =>
              dsimp only
              rw [visitEntry_eq]
              cases hent : entryRun info pkgFull stmts with
              | error e => simp [Except.map]
              | ok od =>
                  simp only [Except.map]
                  rw [classifyPackages_eq info fs rest (foldInsert rw od.2)]
                  cases hruns : pkgRuns info fs rest with
                  | error e => simp [Except.map]
                  | ok ds => simp [Except.map, foldInsert_append]

theorem lookupLast_some_mem {κ ν : Type} [DecidableEq κ] :
    ∀ (l : List (κ × ν)) (k : κ) (v : ν), lookupLast l k = some v → (k, v) ∈ l
  | [], _, _, h => by cases h
  | p :: rest, k, v, h => by
      rw [lookupLast] at h
      cases hr : lookupLast rest k with
      | some w =>
          rw [hr] at h
          cases h
          exact List.mem_cons_of_mem p (lookupLast_some_mem rest k v hr)
      | none =>
          rw [hr] at h
          by_cases hpk : p.1 = k
          · rw [if_pos hpk] at h
            cases h
            have : p = (k, p.2) := by rw [← hpk]
            rw [this]
            exact List.mem_cons_self _ _
          · rw [if_neg hpk] at h
            cases h

theorem pkgRuns_ok (info : PythonPackageInfo) (fs : FileSystem) :
    ∀ (l : List (Dotted × List String)) (ds : List (List (Dotted × Dotted))),
      pkgRuns info fs l = Except.ok ds →
      ds = l.map (pkgDelta info fs) ∧
        ∀ p ∈ l, pkgRun info fs p = Except.ok (pkgDelta info fs p)
  | [], ds, h => by
      rw [pkgRuns] at h
      cases h
      exact ⟨rfl, by simp⟩
  | p :: rest, ds, h => by
      rw [pkgRuns] at h
      cases hp : pkgRun info fs p with
      | error e => rw [hp] at h; cases h
      | ok d =>
          rw [hp] at h
          cases hrest : pkgRuns info fs rest with
          | error e => rw [hrest] at h; cases h
          | ok ds' =>
              rw [hrest] at h
              cases h
              obtain ⟨hds, hall⟩ := pkgRuns_ok info fs rest ds' hrest
              have hdelta : pkgDelta info fs p = d := by rw [pkgDelta, hp]
              refine ⟨by rw [List.map_cons, hdelta, hds], ?_⟩
              intro q hq
              rcases List.mem_cons.mp hq with hh | ht
              · subst hh; rw [hdelta]; exact hp
              · exact hall q ht

theorem pkgRuns_ok_of_all (info : PythonPackageInfo) (fs : FileSystem) :
    ∀ (l : List (Dotted × List String)),
      (∀ p ∈ l, pkgRun info fs p = Except.ok (pkgDelta info fs p)) →
      pkgRuns info fs l = Except.ok (l.map (pkgDelta info fs))
  | [], _ => rfl
  | p :: rest, hall => by
      rw [pkgRuns, hall p (List.mem_cons_self p rest),
        pkgRuns_ok_of_all info fs rest (fun q hq => hall q (List.mem_cons_of_mem p hq))]
      rfl

theorem readInit_ok_mem (fs : FileSystem) (pp : List String) (stmts : List Stmt)
    (h : readInit fs pp = Except.ok stmts) : ∃ e ∈ fs, stmts = e.initStmts := by
  rw [readInit] at h
  cases hf : fs.find? (fun e => e.path = pp) with
  | none => rw [hf] at h; cases h
  | some e =>
      rw [hf] at h
      dsimp only at h
      by_cases hi : e.hasInit
      · rw [if_pos hi] at h
        cases h
        exact ⟨e, List.mem_of_find?_eq_some hf, rfl⟩
      · rw [if_neg hi] at h
        cases h

theorem pkgRun_shape (info : PythonPackageInfo) (fs : FileSystem)
    (p : Dotted × List String) (d : List (Dotted × Dotted))
    (hwf : ∀ e ∈ fs, ∀ s ∈ e.initStmts, stmtWF s = true)
    (hok : pkgRun info fs p = Except.ok d) :
    ∃ f, dictGet? info.paths_to_packages p.2 = some f ∧
      ∀ q ∈ d, ∃ x, q.1 = f ++ [x] := by
  rw [pkgRun] at hok
  cases hri : readInit fs p.2 with
  | error e => rw [hri] at hok; cases hok
  | ok stmts =>
      rw [hri] at hok
      dsimp only at hok
      cases hlk : dictGet? info.paths_to_packages p.2 with
      | none => rw [hlk] at hok; cases hok
      | some f =>
          rw [hlk] at hok
          dsimp only at hok
          cases hent : entryRun info f stmts with
          | error e => rw [hent] at hok; cases hok
          | ok od =>
              rw [hent] at hok
              cases hok
              obtain ⟨e, he, hstmts⟩ := readInit_ok_mem fs p.2 stmts hri
              refine ⟨f, rfl, ?_⟩
              exact entryRun_shape info f stmts od
                (fun s hs => hwf e he s (hstmts ▸ hs)) hent

theorem pkgDelta_key_disjoint (info : PythonPackageInfo) (fs : FileSystem)
    (p q : Dotted × List String)
    (hwf : ∀ e ∈ fs, ∀ s ∈ e.initStmts, stmtWF s = true)
    (hp : pkgRun info fs p = Except.ok (pkgDelta info fs p))
    (hq : pkgRun info fs q = Except.ok (pkgDelta info fs q))
    (hne : resolvedPkg info p ≠ resolvedPkg info q)
    (k v : Dotted) (hkp : lookupLast (pkgDelta info fs p) k = some v) :
    lookupLast (pkgDelta info fs q) k = none := by
  obtain ⟨f, hf, hshapep⟩ := pkgRun_shape info fs p _ hwf hp
  obtain ⟨g, hg, hshapeq⟩ := pkgRun_shape info fs q _ hwf hq
  have hfg : f ≠ g := by
    intro hx
    exact hne (by rw [resolvedPkg, resolvedPkg, hf, hg, hx])
  cases hlq : lookupLast (pkgDelta info fs q) k with
  | none => rfl
  | some w =>
      exfalso
      obtain ⟨x, hx⟩ := hshapep (k, v) (lookupLast_some_mem _ k v hkp)
      obtain ⟨y, hy⟩ := hshapeq (k, w) (lookupLast_some_mem _ k w hlq)
      have : f ++ [x] = g ++ [y] := by rw [← hx, ← hy]
      exact hfg (List.append_inj' this rfl).1

theorem joinDelta_perm (info : PythonPackageInfo) (fs : FileSystem)
    (hwf : ∀ e ∈ fs, ∀ s ∈ e.initStmts, stmtWF s = true)
    {l₁ l₂ : List (Dotted × List String)} (hperm : l₁.Perm l₂) :
    (∀ p ∈ l₁, pkgRun info fs p = Except.ok (pkgDelta info fs p)) →
    (l₁.map (resolvedPkg info)).Nodup →
    ∀ k, lookupLast (l₁.map (pkgDelta info fs)).flatten k
       = lookupLast (l₂.map (pkgDelta info fs)).flatten k := by
  induction hperm with
  | nil => intro _ _ k; rfl
  | cons x h ih =>
      intro hall hnd k
      simp only [List.map_cons, List.nodup_cons] at hnd
      simp only [List.map_cons, List.flatten_cons, lookupLast_append]
      rw [ih (fun q hq => hall q (List.mem_cons_of_mem x hq)) hnd.2 k]
  | swap x y l =>
      intro hall hnd k
      simp only [List.map_cons, List.nodup_cons] at hnd
      simp only [List.map_cons, List.flatten_cons, lookupLast_append]
      have hx : pkgRun info fs x = Except.ok (pkgDelta info fs x) :=
        hall x (by simp)
      have hy : pkgRun info fs y = Except.ok (pkgDelta info fs y) :=
        hall y (by simp)
      have hne : resolvedPkg info y ≠ resolvedPkg info x := by
        intro hxy
        exact hnd.1 (by rw [hxy]; exact List.mem_cons_self _ _)
      cases hJ : lookupLast ((l.map (pkgDelta info fs)).flatten) k with
      | some v => simp [hJ]
      | none =>
          simp only [hJ]
          cases hdx : lookupLast (pkgDelta info fs x) k with
          | some v =>
              have hdy := pkgDelta_key_disjoint info fs x y hwf hx hy
                (fun hxy => hne hxy.symm) k v hdx
              simp [hdx, hdy]
          | none =>
              cases hdy : lookupLast (pkgDelta info fs y) k <;> simp [hdx, hdy]
  | trans h₁ h₂ ih₁ ih₂ =>
      intro hall hnd k
      have hall₂ := fun p hp => hall p (h₁.mem_iff.mpr hp)
      have hnd₂ := ((h₁.map (resolvedPkg info)).nodup_iff).mp hnd
      exact (ih₁ hall hnd k).trans (ih₂ hall₂ hnd₂ k)

theorem refsLoop_eq (g : ModuleGraph) (rw : Rewrites) :
    ∀ (rids : List Nat) (attrs : List (Nat × Dotted)),
      refsLoop g rw rids attrs = foldInsert attrs (refPairs g rw rids)
  | [], attrs => rfl
  | rid :: rest, attrs => by
      rw [refsLoop, refPairs, List.filterMap_cons]
      cases haid : g.parentAttr rid with
      | none =>
          dsimp only
          exact refsLoop_eq g rw rest attrs
      | some aid =>
          dsimp only
          cases hfn : g.attrFullName aid with
          | none =>
              have hhit : attrHit g rw aid = none := by unfold attrHit; rw [hfn]
              rw [hhit]
              dsimp only
              exact refsLoop_eq g rw rest attrs
          | some fn =>
              dsimp only
              cases hget : dictGet? rw fn with
              | none =>
                  have hhit : attrHit g rw aid = none := by
                    unfold attrHit; rw [hfn]; exact hget
                  rw [hhit]
                  dsimp only
                  exact refsLoop_eq g rw rest attrs
              | some repl =>
                  have hhit : attrHit g rw aid = some repl := by
                    unfold attrHit; rw [hfn]; exact hget
                  rw [hhit]
                  dsimp only
                  exact (refsLoop_eq g rw rest (dictInsert attrs aid repl)).trans
                    (foldInsert_cons attrs (aid, repl) _).symm

theorem refineLoop_snd (g : ModuleGraph) (rw : Rewrites) :
    ∀ (asgs : List ScopeAssignment)
      (acc : List (Stmt × Dotted) × List (Nat × Dotted)),
      (asgs.foldl (fun acc asg => processAssignment g rw asg acc) acc).2
        = foldInsert acc.2 ((asgs.map (assignAttrPairs g rw)).flatten)
  | [], acc => by simp [foldInsert_nil]
  | asg :: rest, acc => by
      rw [List.foldl_cons, List.map_cons, List.flatten_cons, foldInsert_append,
        refineLoop_snd g rw rest (processAssignment g rw asg acc)]
      have hsnd : (processAssignment g rw asg acc).2
          = foldInsert acc.2 (assignAttrPairs g rw asg) := by
        rw [processAssignment, assignAttrPairs]
        cases hnode : asg.node with
        | none => rw [foldInsert_nil]
        | some node =>
            dsimp only
            by_cases hcond : (asg.isAssignment && isImportNode (some node)) = true
            · rw [if_pos hcond, if_pos hcond]
              exact refsLoop_eq g rw asg.references acc.2
            · rw [if_neg hcond, if_neg hcond, foldInsert_nil]
      rw [hsnd]

theorem refine_snd_eq (g : ModuleGraph) (rw : Rewrites) :
    (refine_indirect_references g rw).2
      = foldInsert [] ((g.assignments.map (assignAttrPairs g rw)).flatten) := by
  rw [refine_indirect_references, refineLoop_snd]

theorem refPairs_mem (g : ModuleGraph) (rw : Rewrites) (rids : List Nat)
    (aid : Nat) (v : Dotted) :
    (aid, v) ∈ refPairs g rw rids ↔
      ∃ rid ∈ rids, g.parentAttr rid = some aid ∧ attrHit g rw aid = some v := by
  rw [refPairs, List.mem_filterMap]
  constructor
  · rintro ⟨rid, hrid, hf⟩
    refine ⟨rid, hrid, ?_⟩
    cases haid : g.parentAttr rid with
    | none => rw [haid] at hf; cases hf
    | some aid' =>
        rw [haid] at hf
        dsimp only at hf
        cases hhit : attrHit g rw aid' with
        | none => rw [hhit] at hf; cases hf
        | some repl =>
            rw [hhit] at hf
            dsimp only at hf
            cases hf
            exact ⟨rfl, hhit⟩
  · rintro ⟨rid, hrid, hpar, hhit⟩
    refine ⟨rid, hrid, ?_⟩
    rw [hpar]
    dsimp only
    rw [hhit]

theorem assignAttrPairs_mem (g : ModuleGraph) (rw : Rewrites) (asg : ScopeAssignment)
    (aid : Nat) (v : Dotted) :
    (aid, v) ∈ assignAttrPairs g rw asg ↔
      (asg.isAssignment = true ∧ isImportNode asg.node = true ∧
       ∃ rid ∈ asg.references, g.parentAttr rid = some aid ∧ attrHit g rw aid = some v) := by
  rw [assignAttrPairs]
  cases hnode : asg.node with
  | none => simp [isImportNode]
  | some node =>
      dsimp only
      by_cases hcond : (asg.isAssignment && isImportNode (some node)) = true
      · rw [if_pos hcond]
        obtain ⟨hA, hI⟩ : asg.isAssignment = true ∧ isImportNode (some node) = true := by
          simpa using hcond
        rw [refPairs_mem]
        simp [hA, hI]
      · rw [if_neg hcond]
        constructor
        · rintro h; cases h
        · rintro ⟨hA, hI, _⟩
          exact absurd (by simp [hA, hI]) hcond

/-- C9 (amended): during reference resolution, for every use of a binding
introduced by an *import statement* (an `Assignment` whose node is `Import`
or `ImportFrom` — references of other bindings are never inspected), an
attribute node is recorded in the match set, mapped to the table's canonical
reference, exactly when it is the immediate syntactic parent of such a use
and its full dotted name is a key of the rewrite table; nothing else is
recorded. -/
theorem refine_attr_records_iff (g : ModuleGraph) (rw : Rewrites) (aid : Nat) (v : Dotted) :
    dictGet? (refine_indirect_references g rw).2 aid = some v ↔
      (attrHit g rw aid = some v ∧
       ∃ asg ∈ g.assignments, asg.isAssignment = true ∧ isImportNode asg.node = true ∧
         ∃ rid ∈ asg.references, g.parentAttr rid = some aid) := by
  rw [refine_snd_eq, dictGet?_foldInsert]
  have hF : ∀ p ∈ (g.assignments.map (assignAttrPairs g rw)).flatten,
      attrHit g rw p.1 = some p.2 := by
    intro p hp
    rcases List.mem_flatten.mp hp with ⟨sub, hsub, hpsub⟩
    rcases List.mem_map.mp hsub with ⟨asg, _, hsubeq⟩
    rw [← hsubeq] at hpsub
    obtain ⟨a, b⟩ := p
    rcases (assignAttrPairs_mem g rw asg a b).mp hpsub with ⟨_, _, _, _, _, hhit⟩
    exact hhit
  have hiff := lookupLast_fn_iff (attrHit g rw) _ hF aid v
  have hkeys_to :
      aid ∈ ((g.assignments.map (assignAttrPairs g rw)).flatten).map Prod.fst →
      ∃ asg ∈ g.assignments, asg.isAssignment = true ∧ isImportNode asg.node = true ∧
        ∃ rid ∈ asg.references, g.parentAttr rid = some aid := by
    intro hmem
    rcases List.mem_map.mp hmem with ⟨p, hp, hpa⟩
    obtain ⟨a, b⟩ := p
    cases hpa
    rcases List.mem_flatten.mp hp with ⟨sub, hsub, hpsub⟩
    rcases List.mem_map.mp hsub with ⟨asg, hasg, hsubeq⟩
    rw [← hsubeq] at hpsub
    rcases (assignAttrPairs_mem g rw asg a b).mp hpsub with ⟨hA, hI, rid, hrid, hpar, _⟩
    exact ⟨asg, hasg, hA, hI, rid, hrid, hpar⟩
  have hto_keys :
      (∃ asg ∈ g.assignments, asg.isAssignment = true ∧ isImportNode asg.node = true ∧
        ∃ rid ∈ asg.references, g.parentAttr rid = some aid) →
      attrHit g rw aid = some v →
      aid ∈ ((g.assignments.map (assignAttrPairs g rw)).flatten).map Prod.fst := by
    rintro ⟨asg, hasg, hA, hI, rid, hrid, hpar⟩ hhit
    have hmem : (aid, v) ∈ assignAttrPairs g rw asg :=
      (assignAttrPairs_mem g rw asg aid v).mpr ⟨hA, hI, rid, hrid, hpar, hhit⟩
    exact List.mem_map.mpr
      ⟨(aid, v),
       List.mem_flatten.mpr
         ⟨assignAttrPairs g rw asg, List.mem_map.mpr ⟨asg, hasg, rfl⟩, hmem⟩, rfl⟩
  cases hl : lookupLast ((g.assignments.map (assignAttrPairs g rw)).flatten) aid with
  | some w =>
      dsimp only
      constructor
      · intro h
        have hlk : lookupLast ((g.assignments.map (assignAttrPairs g rw)).flatten) aid
            = some v := by rw [hl]; exact h
        rcases hiff.mp hlk with ⟨hhit, hmem⟩
        exact ⟨hhit, hkeys_to hmem⟩
      · rintro ⟨hhit, hex⟩
        have hlk := hiff.mpr ⟨hhit, hto_keys hex hhit⟩
        rw [hl] at hlk
        exact hlk
  | none =>
      dsimp only [dictGet?]
      constructor
      · intro h; cases h
      · rintro ⟨hhit, hex⟩
        have hlk := hiff.mpr ⟨hhit, hto_keys hex hhit⟩
        rw [hl] at hlk
        cases hlk

theorem fromDelta_keys_sublist (pkgFull mod_name : Dotted) :
    ∀ (names : List ImportAlias),
      ((fromDelta pkgFull mod_name names).map Prod.fst).Sublist
        (names.map (fromKey pkgFull))
  | [] => List.Sublist.refl []
  | al :: rest => by
      rw [fromDelta, List.filterMap_cons, List.map_cons]
      cases hals : al.asname with
      | some a =>
          by_cases hdeg : mod_name ++ al.name = pkgFull ++ [a]
          · simp only [hals, if_pos hdeg]
            exact List.Sublist.cons (fromKey pkgFull al)
              (fromDelta_keys_sublist pkgFull mod_name rest)
          · simp only [hals, if_neg hdeg, List.map_cons]
            have hhead : fromKey pkgFull al = pkgFull ++ [a] := by
              rw [fromKey, hals]
            rw [hhead]
            exact List.Sublist.cons₂ (pkgFull ++ [a])
              (fromDelta_keys_sublist pkgFull mod_name rest)
      | none =>
          by_cases hdeg : mod_name ++ al.name = pkgFull ++ al.name
          · simp only [hals, if_pos hdeg]
            exact List.Sublist.cons (fromKey pkgFull al)
              (fromDelta_keys_sublist pkgFull mod_name rest)
          · simp only [hals, if_neg hdeg, List.map_cons]
            have hhead : fromKey pkgFull al = pkgFull ++ al.name := by
              rw [fromKey, hals]
            rw [hhead]
            exact List.Sublist.cons₂ (pkgFull ++ al.name)
              (fromDelta_keys_sublist pkgFull mod_name rest)

theorem impDelta_keys (pkgFull : Dotted) (names : List ImportAlias) :
    (impDelta pkgFull names).map Prod.fst
      = (names.filterMap ImportAlias.asname).map (fun a => pkgFull ++ [a]) := by
  rw [impDelta, List.map_filterMap, List.map_filterMap]
  refine List.filterMap_congr ?_
  intro al _
  cases hals : al.asname <;> simp [hals]

theorem aliasedIds_eq_nil_iff : ∀ (names : List ImportAlias) (k : Nat),
    (aliasedIds k names = []) ↔ names.all (fun al => al.asname.isNone) = true
  | [], k => by simp [aliasedIds]
  | al :: rest, k => by
      cases hals : al.asname with
      | some a => simp [aliasedIds, hals]
      | none => simp [aliasedIds, hals, aliasedIds_eq_nil_iff rest (k + 1)]

theorem importLoop_plain (info : PythonPackageInfo) (pkgFull : Dotted) :
    ∀ (names : List ImportAlias) (k : Nat) (rw : Rewrites) (idxs : List Nat),
      (∀ al ∈ names, al.asname = none) →
      (∀ al ∈ names, (dictGet? info.fullnames_to_packages al.name).isSome = true) →
      importLoop info pkgFull (pyEnumerate k names) rw idxs = Except.ok (rw, idxs)
  | [], _, _, _, _, _ => rfl
  | al :: rest, k, rw, idxs, hplain, hidx => by
      have hals := hplain al (List.mem_cons_self al rest)
      have hsome := hidx al (List.mem_cons_self al rest)
      obtain ⟨mp, hmp⟩ := Option.isSome_iff_exists.mp hsome
      rw [pyEnumerate, importLoop, hals, hmp]
      exact importLoop_plain info pkgFull rest (k + 1) rw idxs
        (fun q hq => hplain q (List.mem_cons_of_mem al hq))
        (fun q hq => hidx q (List.mem_cons_of_mem al hq))

/-- C1 counterexample: for package `pkg` whose entry point contains
`from .mod1 import var2 as variable2` (one relative dot, module name
present), the recorded rule is `pkg.variable2 -> mod1.var2`, not the claimed
`pkg.variable2 -> pkg.mod1.var2`: `leave_ImportFrom` uses
`original_node.module` verbatim whenever it is non-`None` and ignores the
relative dots, as the repository's own test expects. -/
theorem leave_ImportFrom_relative_counterexample :
    leave_ImportFrom ["pkg"] (some ["mod1"]) 1
        [ImportAlias.mk ["var2"] (some "variable2")] []
      = Except.ok ([(["pkg", "variable2"], ["mod1", "var2"])], none) ∧
    (["mod1", "var2"] : Dotted) ≠ ["pkg", "mod1", "var2"] :=
  ⟨rfl, by decide⟩

/-- C1 (amended): for every from-import in a package's entry point and
every imported name, the classifier records the rule whose key is the package's
full name extended by the exposed name (alias if present, else the original
name) and whose value is the computed module part extended by the original
name — where the module part is `original_node.module` taken verbatim when
present (relative dots ignored), and only for dots-only relative imports the
dots resolved against the package's full name — provided the rule is not the
structural self-reference that is skipped.  Stated for statements whose
exposed keys are distinct. -/
theorem leave_ImportFrom_records (pkgFull : Dotted) (module : Option Dotted)
    (relative : Nat) (names : List ImportAlias) (rw rw' : Rewrites) (t : Option Stmt)
    (mod_name : Dotted)
    (hok : leave_ImportFrom pkgFull module relative names rw = Except.ok (rw', t))
    (hmod : fromModName module relative pkgFull = Except.ok mod_name)
    (hnd : (names.map (fromKey pkgFull)).Nodup) :
    ∀ al ∈ names, mod_name ++ al.name ≠ fromKey pkgFull al →
      dictGet? rw' (fromKey pkgFull al) = some (mod_name ++ al.name) := by
  intro al hal hne
  rw [leave_ImportFrom, hmod] at hok
  dsimp only at hok
  cases hok
  rw [fromLoop_eq, dictGet?_foldInsert]
  have hmem : (fromKey pkgFull al, mod_name ++ al.name)
      ∈ fromDelta pkgFull mod_name names := by
    refine List.mem_filterMap.mpr ⟨al, hal, ?_⟩
    cases hals : al.asname with
    | some a =>
        have hne' : ¬ (mod_name ++ al.name = pkgFull ++ [a]) := by
          simpa [fromKey, hals] using hne
        simp [hals, hne', fromKey]
    | none =>
        have hne' : ¬ (mod_name ++ al.name = pkgFull ++ al.name) := by
          simpa [fromKey, hals] using hne
        simp [hals, hne', fromKey]
  have hkeysnd : ((fromDelta pkgFull mod_name names).map Prod.fst).Nodup :=
    List.Nodup.sublist (fromDelta_keys_sublist pkgFull mod_name names) hnd
  rw [lookupLast_nodup _ _ _ hkeysnd hmem]

/-- C1 witness: `from pkg.mod2 import var3 as variable3` in package `pkg`
records `pkg.variable3 -> pkg.mod2.var3`. -/
theorem leave_ImportFrom_records_witness :
    dictGet? [(["pkg", "variable3"], ["pkg", "mod2", "var3"])]
        (fromKey ["pkg"] (ImportAlias.mk ["var3"] (some "variable3")))
      = some (["pkg", "mod2"] ++ ["var3"]) :=
  leave_ImportFrom_records ["pkg"] (some ["pkg", "mod2"]) 0
    [ImportAlias.mk ["var3"] (some "variable3")]
    [] [(["pkg", "variable3"], ["pkg", "mod2", "var3"])] none ["pkg", "mod2"]
    rfl rfl (by decide)
    (ImportAlias.mk ["var3"] (some "variable3")) (List.mem_singleton.mpr rfl) (by decide)

/-- C2 counterexample: in package `pkg.sub_pkg`, `from . import mod3`
produces a direct reference (a dotted `Name` node for `pkg.sub_pkg` plus
`mod3`) that is textually identical to the indirect reference
`pkg.sub_pkg.mod3`, yet the classifier records the (self-referential) rule —
the guard compares nodes with `deep_equals`, not text — and removes the
statement instead of leaving it untouched. -/
theorem leave_ImportFrom_textual_self_counterexample :
    String.intercalate "." (["pkg.sub_pkg"] ++ ["mod3"])
        = String.intercalate "." (["pkg", "sub_pkg"] ++ ["mod3"]) ∧
    leave_ImportFrom ["pkg", "sub_pkg"] none 1 [ImportAlias.mk ["mod3"] none] []
      = Except.ok ([(["pkg", "sub_pkg", "mod3"], ["pkg.sub_pkg", "mod3"])], none) :=
  ⟨rfl, rfl⟩

/-- C2 (amended): when the computed direct-reference node equals the
indirect-reference node (structural `deep_equals` identity, which in a
single-segment package coincides with textual identity), no rule is recorded
for that name; but the from-import statement is still removed from the entry
point — `leave_ImportFrom` always returns `RemoveFromParent`. -/
theorem leave_ImportFrom_self_reference_guard (pkgFull : Dotted)
    (module : Option Dotted) (relative : Nat) (names : List ImportAlias)
    (rw rw' : Rewrites) (t : Option Stmt) (mod_name : Dotted)
    (hok : leave_ImportFrom pkgFull module relative names rw = Except.ok (rw', t))
    (hmod : fromModName module relative pkgFull = Except.ok mod_name)
    (hdeg : ∀ al ∈ names, mod_name ++ al.name = fromKey pkgFull al) :
    rw' = rw ∧ t = none := by
  rw [leave_ImportFrom, hmod] at hok
  dsimp only at hok
  cases hok
  refine ⟨?_, rfl⟩
  rw [fromLoop_eq]
  have hnil : fromDelta pkgFull mod_name names = [] := by
    rw [fromDelta, List.filterMap_eq_nil_iff]
    intro al hal
    cases hals : al.asname with
    | some a =>
        have hd := hdeg al hal
        rw [fromKey, hals] at hd
        simp [hals, hd]
    | none =>
        have hd := hdeg al hal
        rw [fromKey, hals] at hd
        simp [hals, hd]
  rw [hnil, foldInsert_nil]

/-- C2 witness: `from . import mod2` in top-level package `pkg` records
nothing and is removed. -/
theorem leave_ImportFrom_self_reference_guard_witness :
    ([(["k"], ["v"])] : Rewrites) = [(["k"], ["v"])] ∧ (none : Option Stmt) = none :=
  leave_ImportFrom_self_reference_guard ["pkg"] none 1 [ImportAlias.mk ["mod2"] none]
    [(["k"], ["v"])] [(["k"], ["v"])] none ["pkg"] rfl rfl (by decide)

/-- C3 counterexample: a nonexistent project root (whose parent walks to no
directory entries) does not fail: `find_packages` returns `[]` and
`PythonPackageInfo.__init__` succeeds, producing an index with six empty
tables — no `NotFound` condition exists anywhere in the constructor. -/
theorem packageInfo_missing_root_counterexample :
    PythonPackageInfo.init [] = PythonPackageInfo.mk [] [] [] [] [] [] := rfl

/-- C3 (amended): Package Index construction is total and silent: a missing
root and a root whose directory has no entry-point file both yield an index
with all tables empty (no `NotFound`), and a directory whose name contains
non-identifier characters (here `foo-bar`) is indexed as a package under
that name rather than reported as `InvalidPackageName`. -/
theorem packageInfo_construction_silent :
    PythonPackageInfo.init [] = PythonPackageInfo.mk [] [] [] [] [] [] ∧
    PythonPackageInfo.init [DirEntry.mk ["pkg"] false [] ["mod1"]]
      = PythonPackageInfo.mk [] [] [] [] [] [] ∧
    (PythonPackageInfo.init [DirEntry.mk ["foo-bar"] true [] ["m"]]).packages_to_paths
      = [(["foo-bar"], ["foo-bar"])] :=
  ⟨rfl, rfl, rfl⟩

/-- C4 (code bug): `RewriteIndirectImportsTransformer`'s `leave_Import` and
`leave_ImportFrom` are TODO stubs (`breakpoint()` then
`return updated_node`), so a matched import statement comes back unchanged
even though `imports_with_indirects` maps it to a canonical module and the
class docstring promises the replacement; only the matched attribute access
is replaced by its canonical dotted expression. -/
theorem rewrite_transformer_import_stub :
    dictGet? [(impStmtC4, (["pkg", "mod1"] : Dotted))] impStmtC4
      = some ["pkg", "mod1"] ∧
    rewriteModule [(impStmtC4, ["pkg", "mod1"])] [(1, ["pkg", "mod2", "var3"])]
        [MNode.importStmt impStmtC4, MNode.attrExpr 1 (some ["pkg", "var3"])]
      = [MNode.importStmt impStmtC4, MNode.dottedExpr ["pkg", "mod2", "var3"]] :=
  ⟨rfl, rfl⟩

/-- C5: for every aliased whole-module import among the names of a
top-level import statement in package P's entry point, the classifier records the rule
mapping P's full name extended by the alias to the imported module name, and
removes that name from the statement in the returned tree; if every name is
removed the whole statement is removed (aliases assumed distinct, as the
claim presupposes a single rule per exposed name). -/
theorem leave_Import_aliased_rules (info : PythonPackageInfo) (pkgFull : Dotted)
    (names : List ImportAlias) (rw rw' : Rewrites) (out : Option (List ImportAlias))
    (hok : leave_Import info pkgFull names rw = Except.ok (rw', out))
    (hnd : (names.filterMap ImportAlias.asname).Nodup) :
    (∀ al ∈ names, ∀ a, al.asname = some a →
        dictGet? rw' (pkgFull ++ [a]) = some al.name) ∧
    out = (if names.all (fun al => al.asname.isNone) then some names
           else
             if names.filter (fun al => al.asname.isNone) = [] then none
             else some (names.filter (fun al => al.asname.isNone))) := by
  rw [leave_Import_eq] at hok
  cases hres : impRes info (pyEnumerate 0 names) with
  | error e => rw [hres] at hok; cases hok
  | ok ids =>
      rw [hres] at hok
      simp only [Except.map] at hok
      cases hok
      have hids := impRes_ok_ids info names 0 ids hres
      subst hids
      constructor
      · intro al hal a hals
        rw [dictGet?_foldInsert]
        have hmem : (pkgFull ++ [a], al.name) ∈ impDelta pkgFull names :=
          List.mem_filterMap.mpr ⟨al, hal, by rw [hals]; rfl⟩
        have hinj : Function.Injective (fun a : String => pkgFull ++ [a]) := by
          intro x y hxy
          have hxy' : [x] = [y] := List.append_cancel_left hxy
          simpa using hxy'
        have hkeysnd : ((impDelta pkgFull names).map Prod.fst).Nodup := by
          rw [impDelta_keys]
          exact hnd.map hinj
        rw [lookupLast_nodup _ _ _ hkeysnd hmem]
      · rw [remove_aliased_eq_filter names 0]
        by_cases hall : names.all (fun al => al.asname.isNone) = true
        · rw [if_pos ((aliasedIds_eq_nil_iff names 0).mpr hall), if_pos hall]
        · have hne2 : ¬ (aliasedIds 0 names = []) :=
            fun hx => hall ((aliasedIds_eq_nil_iff names 0).mp hx)
          rw [if_neg hne2, if_neg hall]

/-- C5 witness: `import pkg.mod2 as module2` in `pkg` records
`pkg.module2 -> pkg.mod2` (and the statement, all of whose names are
aliased, is removed). -/
theorem leave_Import_aliased_rules_witness :
    dictGet? [(["pkg", "module2"], ["pkg", "mod2"])] (["pkg"] ++ ["module2"])
      = some ["pkg", "mod2"] :=
  (leave_Import_aliased_rules infoW ["pkg"]
      [ImportAlias.mk ["pkg", "mod2"] (some "module2")]
      [] [(["pkg", "module2"], ["pkg", "mod2"])] none rfl (by decide)).1
    (ImportAlias.mk ["pkg", "mod2"] (some "module2")) (List.mem_singleton.mpr rfl)
    "module2" rfl

/-- C6: classifying a project's packages in any two traversal orders of the
same package set, each package classified independently against the
immutable index, yields the same final rewrite table as a key-to-value
mapping (entry points well-formed, resolved package names distinct). -/
theorem classifier_order_deterministic (info : PythonPackageInfo) (fs : FileSystem)
    (l₁ l₂ : List (Dotted × List String)) (rw₁ rw₂ : Rewrites)
    (hwf : ∀ e ∈ fs, ∀ s ∈ e.initStmts, stmtWF s = true)
    (hperm : l₁.Perm l₂)
    (hnd : (l₁.map (resolvedPkg info)).Nodup)
    (h₁ : classifyPackages info fs l₁ [] = Except.ok rw₁)
    (h₂ : classifyPackages info fs l₂ [] = Except.ok rw₂) :
    ∀ k, dictGet? rw₁ k = dictGet? rw₂ k := by
  rw [classifyPackages_eq] at h₁ h₂
  cases hr₁ : pkgRuns info fs l₁ with
  | error e => rw [hr₁] at h₁; cases h₁
  | ok ds₁ =>
      rw [hr₁] at h₁
      simp only [Except.map] at h₁
      cases h₁
      cases hr₂ : pkgRuns info fs l₂ with
      | error e => rw [hr₂] at h₂; cases h₂
      | ok ds₂ =>
          rw [hr₂] at h₂
          simp only [Except.map] at h₂
          cases h₂
          obtain ⟨hds₁, hall₁⟩ := pkgRuns_ok info fs l₁ ds₁ hr₁
          obtain ⟨hds₂, _⟩ := pkgRuns_ok info fs l₂ ds₂ hr₂
          subst hds₁
          subst hds₂
          intro k
          rw [dictGet?_foldInsert, dictGet?_foldInsert,
            joinDelta_perm info fs hwf hperm hall₁ hnd k]

/-- C6 witness: the two orders of the fixture's two packages produce the
same lookup for `pkg.variable3`. -/
theorem classifier_order_deterministic_witness :
    dictGet? [(["pkg", "variable3"], ["pkg", "mod2", "var3"]),
              (["pkg", "sub_pkg", "var1"], ["pkg", "var1"])] ["pkg", "variable3"]
      = dictGet? [(["pkg", "sub_pkg", "var1"], ["pkg", "var1"]),
                  (["pkg", "variable3"], ["pkg", "mod2", "var3"])] ["pkg", "variable3"] :=
  classifier_order_deterministic infoW fsW pkgOrderA pkgOrderB _ _
    (by decide)
    (List.Perm.swap (["pkg", "sub_pkg"], ["pkg", "sub_pkg"]) (["pkg"], ["pkg"]) [])
    (by decide) rfl rfl ["pkg", "variable3"]

/-- C7 counterexample: a plain `import pkg` inside `pkg`'s own entry point —
the "module is the package itself" case the claim asserts is handled
without error — raises `KeyError`, because the bare package name is never a
key of `fullnames_to_packages`. -/
theorem leave_Import_self_import_counterexample :
    leave_Import infoW ["pkg"] [ImportAlias.mk ["pkg"] none] []
      = Except.error "KeyError: pkg" := rfl

/-- C7 (amended): a plain (un-aliased) whole-module import is left unchanged
with no rule recorded only when every imported module's full name is a key
of the index's `fullnames_to_packages` table; imports of the package itself
or of modules outside the index instead raise `KeyError`. -/
theorem leave_Import_plain_indexed_untouched (info : PythonPackageInfo)
    (pkgFull : Dotted) (names : List ImportAlias) (rw : Rewrites)
    (hplain : ∀ al ∈ names, al.asname = none)
    (hidx : ∀ al ∈ names, (dictGet? info.fullnames_to_packages al.name).isSome = true) :
    leave_Import info pkgFull names rw = Except.ok (rw, some names) := by
  rw [leave_Import, importLoop_plain info pkgFull names 0 rw [] hplain hidx]
  rfl

/-- C7 witness: `import pkg.mod1` in `pkg.sub_pkg`'s entry point ("above"
the package but indexed) is left unchanged with no rule recorded. -/
theorem leave_Import_plain_indexed_untouched_witness :
    leave_Import infoW ["pkg", "sub_pkg"] [ImportAlias.mk ["pkg", "mod1"] none] []
      = Except.ok ([], some [ImportAlias.mk ["pkg", "mod1"] none]) :=
  leave_Import_plain_indexed_untouched infoW ["pkg", "sub_pkg"]
    [ImportAlias.mk ["pkg", "mod1"] none] [] (by decide) (by decide)

/-- C8 (code bug): the rewrite pass is not idempotent because it never
completes: on a minimal project with one module file the full pass raises
`TypeError` in its phase-2 loop before producing any output, so
`rewrite(rewrite(P))` is undefined rather than equal to `rewrite(P)`. -/
theorem rewrite_pass_never_completes :
    collect_indirect_references fsC8
      = Except.error "TypeError: cannot unpack non-iterable PosixPath" := rfl

/-- C9 counterexample: a binding introduced by a plain assignment
(`pkg = 1`) with a use whose parent attribute `pkg.var3` is a key of the
rewrite table is never inspected — `refine_indirect_references` only walks
the references of bindings introduced by import statements, so the match set
stays empty where the claim requires a recorded match. -/
theorem refine_nonimport_binding_counterexample :
    dictGet? [(["pkg", "var3"], ["pkg", "mod2", "var3"])] ["pkg", "var3"]
      = some ["pkg", "mod2", "var3"] ∧
    (refine_indirect_references graphCx [(["pkg", "var3"], ["pkg", "mod2", "var3"])]).2
      = [] :=
  ⟨rfl, rfl⟩

/-- C10: whenever phase 1 succeeds and the project has at least one module
file, `collect_indirect_references` raises before rewriting any module: its
phase-2 loop iterates the `filenames_to_modules` dict directly (yielding
path keys) while unpacking each into two variables, a `TypeError`. -/
theorem collect_phase2_unpack_raises (fs : FileSystem) (rw : Rewrites)
    (h1 : classifyPackages (PythonPackageInfo.init fs) fs
            (PythonPackageInfo.init fs).packages_to_paths [] = Except.ok rw)
    (hmods : (PythonPackageInfo.init fs).filenames_to_modules ≠ []) :
    collect_indirect_references fs
      = Except.error "TypeError: cannot unpack non-iterable PosixPath" := by
  simp only [collect_indirect_references]
  rw [h1]
  dsimp only
  cases hm : (PythonPackageInfo.init fs).filenames_to_modules with
  | nil => exact absurd hm hmods
  | cons kv rest => rfl

/-- C10 witness: the two-package fixture (four module files) raises the
unpacking `TypeError`. -/
theorem collect_phase2_unpack_raises_witness :
    collect_indirect_references fsW
      = Except.error "TypeError: cannot unpack non-iterable PosixPath" :=
  collect_phase2_unpack_raises fsW
    [(["pkg", "variable3"], ["pkg", "mod2", "var3"]),
     (["pkg", "sub_pkg", "var1"], ["pkg", "var1"])] rfl (by decide)
